import Mathlib

/-!
# Verification of the Venice tool-call parser

Shallow embedding of `src/PROTOTYPE_TOOL_PARSER.py`: the `ToolCall` record,
a model of Python's `json.loads`, the three regex-based extraction
strategies (`MARKER_PATTERN`, `CODE_BLOCK_PATTERN`, `INLINE_JSON_PATTERN`
with Python `re.finditer` semantics), the `_is_likely_tool_call`
disambiguation heuristic, and the `extract_tool_calls` cascade.

Text is modelled as `List Char`.  Python exceptions that can escape to the
caller (`TypeError` from `"function" in data` / `data[...]` on a non-dict,
`KeyError` from a failed dict lookup) are modelled with `Except`;
`json.JSONDecodeError` is handled locally by the code and is modelled as
`Option.none` from the JSON parser.  Float literals 1.0 / 0.8 / 0.6 are
modelled as the rationals 1, 4/5, 3/5 (they are only ever stored and
compared to themselves, never computed with).
-/

namespace VenicePatch

set_option maxRecDepth 65536

/-- JSON values as produced by Python's `json.loads`: `null`, booleans,
numbers (modelled exactly as mantissa × 10 ^ exponent, covering every
JSON numeral), the `NaN` / `Infinity` / `-Infinity` extensions Python
accepts by default, strings, arrays and objects.  Objects are association
lists in insertion order with last-duplicate-key-wins, mirroring `dict`. -/
inductive Json where
  | null : Json
  | bool (b : Bool) : Json
  | num (mant : Int) (exp10 : Int) : Json
  | nanConst : Json
  | infConst (neg : Bool) : Json
  | str (s : List Char) : Json
  | arr (elems : List Json) : Json
  | obj (members : List (List Char × Json)) : Json

/-- Model of `ToolCall` from the source.  The Python constructor stores whatever it
is handed with no validation, so `name` and `params` are arbitrary JSON
values (the code passes `data["function"]` / `data["params"]` verbatim;
the inline strategy wraps its regex group in `Json.str`). -/
structure ToolCall where
  name : Json
  params : Json
  confidence : ℚ

/-- Python exceptions that can escape `extract_tool_calls` (only
`json.JSONDecodeError` is caught by the code). -/
inductive PyErr where
  | typeError : PyErr
  | keyError : PyErr

/-- The whitespace class of JSON (what Python's `json` module skips
between tokens): space, tab, newline, carriage return. -/
def jsonIsSpace (c : Char) : Bool :=
  c = ' ' || c = '\t' || c = '\n' || c = '\r'

/-- Drop JSON whitespace. -/
def skipWs (l : List Char) : List Char := l.dropWhile jsonIsSpace

/-- Hexadecimal digit value, for `\uXXXX` string escapes. -/
def hexVal? (c : Char) : Option Nat :=
  if '0' ≤ c ∧ c ≤ '9' then some (c.toNat - '0'.toNat)
  else if 'a' ≤ c ∧ c ≤ 'f' then some (c.toNat - 'a'.toNat + 10)
  else if 'A' ≤ c ∧ c ≤ 'F' then some (c.toNat - 'A'.toNat + 10)
  else none

/-- The value of four hex digits. -/
def hexQuad (a b c d : Nat) : Nat := ((a * 16 + b) * 16 + c) * 16 + d

/-- A `\uXXXX` escape (the part after `\u`): four hex digits; a high
surrogate followed by a `\u`-escaped low surrogate is combined into one
scalar, as in Python's decoder (a lone surrogate, unrepresentable in
`Char`, degrades to `Char.ofNat`'s fallback — no claim exercises lone
surrogates).  Returns the decoded character and the remaining input. -/
def parseUEscape : List Char → Option (Char × List Char)
  | h1 :: h2 :: h3 :: h4 :: r =>
    match hexVal? h1, hexVal? h2, hexVal? h3, hexVal? h4 with
    | some a, some b, some c, some d =>
      if 0xD800 ≤ hexQuad a b c d ∧ hexQuad a b c d < 0xDC00 then
        match r with
        | b1 :: u1 :: g1 :: g2 :: g3 :: g4 :: r2 =>
          if b1 = '\\' ∧ u1 = 'u' then
            match hexVal? g1, hexVal? g2, hexVal? g3, hexVal? g4 with
            | some a2, some b2, some c2, some d2 =>
              if 0xDC00 ≤ hexQuad a2 b2 c2 d2 ∧ hexQuad a2 b2 c2 d2 < 0xE000
              then
                some (Char.ofNat
                  (0x10000 + (hexQuad a b c d - 0xD800) * 0x400 +
                    (hexQuad a2 b2 c2 d2 - 0xDC00)), r2)
              else some (Char.ofNat (hexQuad a b c d), r)
            | _, _, _, _ => some (Char.ofNat (hexQuad a b c d), r)
          else some (Char.ofNat (hexQuad a b c d), r)
        | _ => some (Char.ofNat (hexQuad a b c d), r)
      else some (Char.ofNat (hexQuad a b c d), r)
    | _, _, _, _ => none
  | _ => none

/-- One escape sequence, after the backslash: the table
`\" \\ \/ \b \f \n \r \t` plus `\uXXXX`.  Anything else is an error, as
in Python's strict decoder. -/
def parseEscape : List Char → Option (Char × List Char)
  | [] => none
  | e :: r =>
    if e = '"' then some ('"', r)
    else if e = '\\' then some ('\\', r)
    else if e = '/' then some ('/', r)
    else if e = 'b' then some ('\x08', r)
    else if e = 'f' then some ('\x0c', r)
    else if e = 'n' then some ('\n', r)
    else if e = 'r' then some ('\r', r)
    else if e = 't' then some ('\t', r)
    else if e = 'u' then parseUEscape r
    else none

/-- Body of a JSON string literal, after the opening quote.  Returns the
decoded characters and the input remaining after the closing quote.
Mirrors Python's strict decoder: raw control characters (code < 0x20)
are rejected, escapes per `parseEscape`. -/
def parseStrBody : Nat → List Char → Option (List Char × List Char)
  | 0, _ => none
  | _, [] => none
  | fuel + 1, c :: rest =>
    if c = '"' then some ([], rest)
    else if c = '\\' then
      match parseEscape rest with
      | none => none
      | some (ec, r2) => (parseStrBody fuel r2).map (fun p => (ec :: p.1, p.2))
    else if c.toNat < 0x20 then none
    else (parseStrBody fuel rest).map (fun p => (c :: p.1, p.2))

/-- Digits `0`–`9` taken greedily. -/
def takeDigits (l : List Char) : List Char := l.takeWhile Char.isDigit

/-- Digit list to natural number (most significant first). -/
def digitsToNat (l : List Char) : Nat :=
  l.foldl (fun acc c => acc * 10 + (c.toNat - '0'.toNat)) 0

/-- JSON numeral, per the grammar Python's `NUMBER_RE` implements:
`-?(0|[1-9][0-9]*)(\.[0-9]+)?([eE][-+]?[0-9]+)?`, longest match; the
fraction / exponent parts are only consumed when well formed (otherwise
they are left for the surrounding parser, which then fails on them, as in
Python).  Returns the value as mantissa × 10 ^ exp10. -/
def parseNumber (l : List Char) : Option (Json × List Char) :=
  let (neg, negLen) : Bool × Nat := match l with
    | '-' :: _ => (true, 1)
    | _ => (false, 0)
  let l1 := l.drop negLen
  match l1 with
  | [] => none
  | d :: _ =>
    if ¬ d.isDigit then none
    else
      let intDigits := if d = '0' then ['0'] else takeDigits l1
      let fracDigits : List Char := match l1.drop intDigits.length with
        | '.' :: r => takeDigits r
        | _ => []
      let fracLen : Nat := if fracDigits = [] then 0 else fracDigits.length + 1
      let l3 := l1.drop (intDigits.length + fracLen)
      let (expVal, expLen) : Int × Nat := match l3 with
        | e :: r =>
          if e = 'e' ∨ e = 'E' then
            let (esign, signLen) : Int × Nat := match r with
              | '-' :: _ => ((-1 : Int), 1)
              | '+' :: _ => ((1 : Int), 1)
              | _ => ((1 : Int), 0)
            let ds := takeDigits (r.drop signLen)
            if ds = [] then ((0 : Int), 0)
            else (esign * (digitsToNat ds : Int), 1 + signLen + ds.length)
          else ((0 : Int), 0)
        | _ => ((0 : Int), 0)
      let mantNat : Nat := digitsToNat (intDigits ++ fracDigits)
      let mant : Int := if neg then -(mantNat : Int) else (mantNat : Int)
      some (Json.num mant (expVal - (fracDigits.length : Int)),
        l.drop (negLen + (intDigits.length + fracLen + expLen)))

/-- Insert into an object association list with `dict` semantics: a
repeated key keeps its original position and takes the new value. -/
def insertKey : List (List Char × Json) → List Char → Json →
    List (List Char × Json)
  | [], k, v => [(k, v)]
  | (k', v') :: t, k, v =>
    if k' = k then (k', v) :: t else (k', v') :: insertKey t k v

mutual

/-- One JSON value, preceded by optional whitespace.  Mirrors Python's
scanner: strings, objects, arrays, `null` / `true` / `false`, the
`NaN` / `Infinity` / `-Infinity` constants, then numerals. -/
def parseValue : Nat → List Char → Option (Json × List Char)
  | 0, _ => none
  | fuel + 1, l =>
    match skipWs l with
    | [] => none
    | '"' :: r => (parseStrBody (r.length + 1) r).map
        (fun p => (Json.str p.1, p.2))
    | '\x7b' :: r => parseObjectBody fuel r
    | '[' :: r => parseArrayBody fuel r
    | l' =>
      if ['n', 'u', 'l', 'l'].isPrefixOf l' then some (Json.null, l'.drop 4)
      else if ['t', 'r', 'u', 'e'].isPrefixOf l' then
        some (Json.bool true, l'.drop 4)
      else if ['f', 'a', 'l', 's', 'e'].isPrefixOf l' then
        some (Json.bool false, l'.drop 5)
      else if ['N', 'a', 'N'].isPrefixOf l' then some (Json.nanConst, l'.drop 3)
      else if ['I', 'n', 'f', 'i', 'n', 'i', 't', 'y'].isPrefixOf l' then
        some (Json.infConst false, l'.drop 8)
      else if ['-', 'I', 'n', 'f', 'i', 'n', 'i', 't', 'y'].isPrefixOf l' then
        some (Json.infConst true, l'.drop 9)
      else parseNumber l'

/-- Object body, after the opening `{`: either an immediately closed empty
object or a member list. -/
def parseObjectBody : Nat → List Char → Option (Json × List Char)
  | 0, _ => none
  | fuel + 1, l =>
    match skipWs l with
    | '\x7d' :: r => some (Json.obj [], r)
    | l' => parseMembers fuel l' []

/-- Object members: `"key" : value`, separated by `,`, terminated by `}`
(a trailing comma is an error, as in Python). -/
def parseMembers : Nat → List Char → List (List Char × Json) →
    Option (Json × List Char)
  | 0, _, _ => none
  | fuel + 1, l, acc =>
    match skipWs l with
    | '"' :: r =>
      match parseStrBody (r.length + 1) r with
      | none => none
      | some (key, r1) =>
        match skipWs r1 with
        | ':' :: r2 =>
          match parseValue fuel r2 with
          | none => none
          | some (v, r3) =>
            match skipWs r3 with
            | ',' :: r4 => parseMembers fuel r4 (insertKey acc key v)
            | '\x7d' :: r4 => some (Json.obj (insertKey acc key v), r4)
            | _ => none
        | _ => none
    | _ => none

/-- Array body, after the opening `[`. -/
def parseArrayBody : Nat → List Char → Option (Json × List Char)
  | 0, _ => none
  | fuel + 1, l =>
    match skipWs l with
    | ']' :: r => some (Json.arr [], r)
    | l' => parseElems fuel l' []

/-- Array elements, separated by `,`, terminated by `]`. -/
def parseElems : Nat → List Char → List Json → Option (Json × List Char)
  | 0, _, _ => none
  | fuel + 1, l, acc =>
    match parseValue fuel l with
    | none => none
    | some (v, r) =>
      match skipWs r with
      | ',' :: r2 => parseElems fuel r2 (acc ++ [v])
      | ']' :: r2 => some (Json.arr (acc ++ [v]), r2)
      | _ => none

end

/-- Model of `json.loads`: parse one value, then require only whitespace
to remain.  `none` models `json.JSONDecodeError`. -/
def jsonLoads (l : List Char) : Option Json :=
  match parseValue (2 * l.length + 2) l with
  | none => none
  | some (v, rest) => if skipWs rest = [] then some v else none

/-! ## Python text helpers: `\s`, `str.strip`, `str.lower`, substring -/

/-- The `\s` class of Python `re` and the default `str.strip` set
(ASCII part): space, tab, newline, carriage return, vertical tab, form
feed.  All claim inputs are ASCII, so the extra Unicode whitespace both
accept is not modelled. -/
def pyIsSpace (c : Char) : Bool :=
  c = ' ' || c = '\t' || c = '\n' || c = '\r' || c = '\x0b' || c = '\x0c'

/-- Python's `str.strip()`. -/
def pyStrip (l : List Char) : List Char :=
  ((l.dropWhile pyIsSpace).reverse.dropWhile pyIsSpace).reverse

/-- Python's `str.lower()` (ASCII). -/
def pyLower (l : List Char) : List Char := l.map Char.toLower

/-- First index at which `pat` occurs in `l` (as a contiguous prefix of
the suffix starting there), scanning left to right. -/
def findPat (pat : List Char) : List Char → Option Nat
  | [] => if pat = [] then some 0 else none
  | c :: t =>
    if pat.isPrefixOf (c :: t) then some 0 else (findPat pat t).map (· + 1)

/-- Python's `in` on strings: substring containment. -/
def isSubstr (pat l : List Char) : Bool := (findPat pat l).isSome

/-! ## `re.finditer` and the three patterns

Each pattern is modelled by an attempt function `tryAt : List Char →
Option (α × Nat)` that decides whether a match of the pattern begins at
the head of the given suffix, returning the captured groups and the total
length of the match.  `finditer` then scans positions left to right,
emitting non-overlapping matches and resuming after each match, exactly
as Python's `re.finditer`. -/

/-- The scanning loop of `re.finditer` over the suffix `l` beginning at
absolute position `pos`. -/
def finditerGo {α : Type} (tryAt : List Char → Option (α × Nat)) :
    Nat → List Char → Nat → List (Nat × α)
  | 0, _, _ => []
  | _, [], _ => []
  | fuel + 1, l@(_ :: t), pos =>
    match tryAt l with
    | some (a, mlen) =>
      (pos, a) :: finditerGo tryAt fuel (l.drop mlen) (pos + mlen)
    | none => finditerGo tryAt fuel t (pos + 1)

/-- Model of `re.finditer(pattern, s)`, as (match-start, captured-groups)
pairs. -/
def finditer {α : Type} (tryAt : List Char → Option (α × Nat))
    (s : List Char) : List (Nat × α) :=
  finditerGo tryAt (s.length + 1) s 0

/-- The start sentinel `TOOL_CALL_START` (15 characters). -/
def startTok : List Char := "TOOL_CALL_START".toList

/-- The terminator `\nTOOL_CALL_END` (14 characters): the lazy `(.*?)` group of
`MARKER_PATTERN` ends at the first following occurrence of this. -/
def endTokNl : List Char := "\nTOOL_CALL_END".toList

/-- Indices of the newline characters in a list, ascending. -/
def nlIdxs : List Char → List Nat
  | [] => []
  | c :: t =>
    (if c = '\n' then [0] else []) ++ (nlIdxs t).map (· + 1)

/-- First success of `f` over a list, in order — the backtracking order
of a regex alternation. -/
def firstSome {α β : Type} (f : α → Option β) : List α → Option β
  | [] => none
  | a :: t =>
    match f a with
    | some b => some b
    | none => firstSome f t

/-- Consumption of `\s*\n` when the next pattern element requires a non-whitespace
character (the fenced-block pattern, where `\{` or the closing fence
follows): the only way `\s*` can backtrack to place `\n` immediately
before a non-whitespace character is to consume the whole whitespace run,
which must be non-empty and end in a newline.  Returns the run length. -/
def wsEndNl (l : List Char) : Option Nat :=
  let r := l.takeWhile pyIsSpace
  if r.getLast? = some '\n' then some r.length else none

/-- Match attempt for `MARKER_PATTERN =
r'TOOL_CALL_START\s*\n(.*?)\nTOOL_CALL_END'` (with `re.DOTALL`) at the
head of `l`.  The greedy `\s*` tries the newline positions of the
whitespace run from last to first; for each, the lazy `(.*?)` group ends
at the first following `\nTOOL_CALL_END`.  Captures group 1 (the
payload) and the match length. -/
def tryMarkerAt (l : List Char) : Option (List Char × Nat) :=
  if startTok.isPrefixOf l then
    let afterTok := l.drop 15
    firstSome (fun k =>
        (findPat endTokNl (afterTok.drop (k + 1))).map
          (fun d => ((afterTok.drop (k + 1)).take d, 15 + (k + 1) + d + 14)))
      ((nlIdxs (afterTok.takeWhile pyIsSpace)).reverse)
  else none

/-- Inner loop for the fenced-block pattern's lazy group: find the
minimal lazy-group length `d` such that the current character is `}` and
the remainder matches `\s*\n` and then the closing fence; returns
`(d, length of the closing remainder after the `}`)`. -/
def tryBlockClose : Nat → List Char → Nat → Option (Nat × Nat)
  | 0, _, _ => none
  | _, [], _ => none
  | fuel + 1, ch :: rest, d =>
    if ch = '\x7d' then
      match wsEndNl rest with
      | some r2 =>
        if ['`', '`', '`'].isPrefixOf (rest.drop r2) then some (d, r2 + 3)
        else tryBlockClose fuel rest (d + 1)
      | none => tryBlockClose fuel rest (d + 1)
    else tryBlockClose fuel rest (d + 1)

/-- Match attempt for `CODE_BLOCK_PATTERN =`
`` r'```(?:json|tool_call)?\s*\n(\x7b.*?\x7d)\s*\n```' `` (with
`re.DOTALL`; braces written `\x7b`/`\x7d` here).  The alternation
commits: when `json` or `tool_call` literally follows the opening fence,
the untagged alternative can never succeed at the same start (its
`\s*\n` would have to match the tag's first letter).  The lazy `.*?`
inside the group grows until a closing brace is found whose tail matches
`\s*\n` and the closing fence.  Captures group 1 (the braced payload,
braces included) and the match length. -/
def tryBlockAt (l : List Char) : Option (List Char × Nat) :=
  if ['`', '`', '`'].isPrefixOf l then
    let tagLen : Nat :=
      if ['j', 's', 'o', 'n'].isPrefixOf (l.drop 3) then 4
      else if ['t', 'o', 'o', 'l', '_', 'c', 'a', 'l', 'l'].isPrefixOf (l.drop 3) then 9
      else 0
    let after := l.drop (3 + tagLen)
    match wsEndNl after with
    | none => none
    | some r =>
      match after.drop r with
      | '\x7b' :: interior =>
        (tryBlockClose (interior.length + 1) interior 0).map
          (fun p =>
            ('\x7b' :: interior.take p.1 ++ ['\x7d'],
             3 + tagLen + r + 1 + p.1 + 1 + p.2))
      | _ => none
  else none

/-- Match attempt for `INLINE_JSON_PATTERN =`
`r'\x7b"function":\s*"([^"]+)",\s*"params":\s*(\x7b[^\x7d]+\x7d)\x7d'`
(braces written `\x7b`/`\x7d` here).  Every quantified element is
followed by a character it cannot match, so the match is deterministic:
greedy `\s*` runs, a non-empty `[^"]+` name, a non-empty params interior
with no closing brace.  Captures (group 1, group 2) and the match
length. -/
def tryInlineAt (l : List Char) : Option ((List Char × List Char) × Nat) :=
  if "\x7b\"function\":".toList.isPrefixOf l then
    let a := l.drop 12
    let w1 := (a.takeWhile pyIsSpace).length
    match a.drop w1 with
    | '"' :: s1 =>
      let nameRun := s1.takeWhile (fun c => c ≠ '"')
      if nameRun = [] then none
      else
        match s1.drop nameRun.length with
        | '"' :: ',' :: b1 =>
          let w2 := (b1.takeWhile pyIsSpace).length
          if "\"params\":".toList.isPrefixOf (b1.drop w2) then
            let c := b1.drop (w2 + 9)
            let w3 := (c.takeWhile pyIsSpace).length
            match c.drop w3 with
            | '\x7b' :: i1 =>
              let pRun := i1.takeWhile (fun c => c ≠ '\x7d')
              if pRun = [] then none
              else
                match i1.drop pRun.length with
                | '\x7d' :: '\x7d' :: _ =>
                  some ((nameRun, '\x7b' :: pRun ++ ['\x7d']),
                    12 + w1 + 1 + nameRun.length + 1 + 1 + w2 + 9 + w3 +
                      1 + pRun.length + 1 + 1)
                | _ => none
            | _ => none
          else none
        | _ => none
    | _ => none
  else none

/-! ## The strategies and the extractor -/

/-- The three `re.finditer` scans, with absolute match-start positions. -/
def scanMarkers (s : List Char) : List (Nat × List Char) :=
  finditer tryMarkerAt s

/-- Fenced-block matches of `CODE_BLOCK_PATTERN`. -/
def scanBlocks (s : List Char) : List (Nat × List Char) :=
  finditer tryBlockAt s

/-- Inline matches of `INLINE_JSON_PATTERN`. -/
def scanInline (s : List Char) : List (Nat × (List Char × List Char)) :=
  finditer tryInlineAt s

/-- The key `"function"`. -/
def funcKey : List Char := "function".toList

/-- The key `"params"`. -/
def paramsKey : List Char := "params".toList

/-- Python's `k in data` on a parsed JSON value: key membership for a
dict, substring test for a str, element equality for a list, and a
`TypeError` (`argument of type ... is not iterable`) for numbers,
booleans, `None`, `nan` and `inf` — which the code does **not** catch. -/
def pyContains (k : List Char) : Json → Except PyErr Bool
  | .obj m => .ok (decide (k ∈ m.map Prod.fst))
  | .str s => .ok (isSubstr k s)
  | .arr xs => .ok (xs.any (fun v => match v with
      | .str s => decide (s = k)
      | _ => false))
  | _ => .error .typeError

/-- Python's `data[k]` with a string key: dict lookup (a missing key is a
`KeyError`), and a `TypeError` (`indices must be integers`) for str,
list, and everything else — not caught by the code either. -/
def pySubscript (v : Json) (k : List Char) : Except PyErr Json :=
  match v with
  | .obj m =>
    match m.find? (fun kv => kv.1 = k) with
    | some kv => .ok kv.2
    | none => .error .keyError
  | _ => .error .typeError

/-- The shared body of the `for match in matches` loops of
`_extract_with_markers` and `_extract_from_code_blocks`: strip the
captured payload, `json.loads` it (a `JSONDecodeError` means `continue`,
modelled as `.ok none`), test `"function" in data and "params" in data`
(which can raise an uncaught `TypeError`), and on success build the
`ToolCall` with this strategy's fixed confidence. -/
def processPayload (conf : ℚ) (body : List Char) :
    Except PyErr (Option ToolCall) :=
  match jsonLoads (pyStrip body) with
  | none => .ok none
  | some data =>
    match pyContains funcKey data with
    | .error e => .error e
    | .ok false => .ok none
    | .ok true =>
      match pyContains paramsKey data with
      | .error e => .error e
      | .ok false => .ok none
      | .ok true =>
        match pySubscript data funcKey with
        | .error e => .error e
        | .ok nm =>
          match pySubscript data paramsKey with
          | .error e => .error e
          | .ok ps => .ok (some ⟨nm, ps, conf⟩)

/-- The whole match loop: candidates processed in match order, appended
in order; an exception raised mid-loop propagates (the partial list is
lost, as in Python). -/
def processMatches (conf : ℚ) :
    List (Nat × List Char) → Except PyErr (List ToolCall)
  | [] => .ok []
  | (_, body) :: rest =>
    match processPayload conf body with
    | .error e => .error e
    | .ok head? =>
      match processMatches conf rest with
      | .error e => .error e
      | .ok tail =>
        .ok (match head? with
          | some tc => tc :: tail
          | none => tail)

/-- Model of `_extract_with_markers`: marker candidates at confidence 1.0. -/
def extractWithMarkers (s : List Char) : Except PyErr (List ToolCall) :=
  processMatches 1 (scanMarkers s)

/-- Model of `_extract_from_code_blocks`: fenced candidates at confidence
0.8. -/
def extractFromCodeBlocks (s : List Char) : Except PyErr (List ToolCall) :=
  processMatches (4 / 5) (scanBlocks s)

/-- The invocation cues of `_is_likely_tool_call`. -/
def callIndicators : List (List Char) :=
  ["using".toList, "calling".toList, "execute".toList, "run".toList,
   "invoke".toList]

/-- The discussion cues of `_is_likely_tool_call`. -/
def discussionIndicators : List (List Char) :=
  ["could".toList, "might".toList, "would".toList, "should".toList,
   "example".toList]

/-- The disambiguation window `text[max(0, position-100) :
min(len(text), position+100)]` (`Nat` subtraction is exactly Python's
`max(0, position - 100)` on non-negative ints). -/
def contextWindow (text : List Char) (position : Nat) : List Char :=
  (text.drop (position - 100)).take
    (min text.length (position + 100) - (position - 100))

/-- Model of `sum(1 for word in words if word in context)`. -/
def cueScore (words : List (List Char)) (context : List Char) : Nat :=
  words.countP (fun w => isSubstr w context)

/-- Model of `_is_likely_tool_call`: lower-case the window around the match and
compare the cue scores; strictly more invocation cues than discussion
cues means "tool call". -/
def isLikelyToolCall (text : List Char) (position : Nat) : Bool :=
  let context := pyLower (contextWindow text position)
  decide (cueScore discussionIndicators context <
    cueScore callIndicators context)

/-- The match loop of `_extract_inline_json`: group 1 is the function
name (a Python `str`), group 2 is parsed with `json.loads`
(`JSONDecodeError` means `continue`), and the candidate is kept only when
`_is_likely_tool_call` accepts the window around the match start.  No
subscripting happens here, so no exception can escape. -/
def processInline (full : List Char) :
    List (Nat × (List Char × List Char)) → List ToolCall
  | [] => []
  | (p, g1, g2) :: rest =>
    match jsonLoads g2 with
    | none => processInline full rest
    | some ps =>
      if isLikelyToolCall full p then
        ⟨Json.str g1, ps, 3 / 5⟩ :: processInline full rest
      else processInline full rest

/-- Model of `_extract_inline_json`: inline candidates at confidence 0.6. -/
def extractInlineJson (s : List Char) : List ToolCall :=
  processInline s (scanInline s)

/-- Model of `extract_tool_calls`: the strategy cascade.  Markers first; when that
yields nothing, fenced blocks; when that also yields nothing, inline
JSON.  An exception from a strategy propagates to the caller. -/
def extract_tool_calls (s : List Char) : Except PyErr (List ToolCall) :=
  match extractWithMarkers s with
  | .error e => .error e
  | .ok ms =>
    if ms.isEmpty then
      match extractFromCodeBlocks s with
      | .error e => .error e
      | .ok cs =>
        if cs.isEmpty then .ok (extractInlineJson s) else .ok cs
    else .ok ms

/-! ## Concrete inputs used by witnesses and counterexamples -/

/-- A text containing both a valid marker-delimited payload (function
`a`) and a valid fenced payload (function `b`). -/
def textBothPayloads : List Char :=
  "TOOL_CALL_START\n\x7b\"function\": \"a\", \"params\": \x7b\x7d\x7d\nTOOL_CALL_END\n```json\n\x7b\"function\": \"b\", \"params\": \x7b\x7d\x7d\n```\n".toList

/-- A marker-delimited payload that is valid JSON but a string, not an
object, containing both `function` and `params` as substrings. -/
def textStrPayload : List Char :=
  "TOOL_CALL_START\n\"functionparams\"\nTOOL_CALL_END".toList

/-- A marker-delimited payload with an empty `function` field. -/
def textEmptyName : List Char :=
  "TOOL_CALL_START\n\x7b\"function\": \"\", \"params\": \x7b\x7d\x7d\nTOOL_CALL_END".toList

/-- A marker-delimited payload whose `params` field is the number 42. -/
def textScalarParams : List Char :=
  "TOOL_CALL_START\n\x7b\"function\": \"f\", \"params\": 42\x7d\nTOOL_CALL_END".toList

/-- A text whose only candidate is a marker-delimited block of broken
JSON. -/
def textBrokenJson : List Char :=
  "TOOL_CALL_START\n\x7b broken json\nTOOL_CALL_END".toList

/-- The inline example from the source's test 3. -/
def textInlineUsing : List Char :=
  "I'm using \x7b\"function\": \"send_message\", \"params\": \x7b\"message\": \"Hello!\"\x7d\x7d to respond.".toList

/-- An inline candidate whose params interior is free of closing braces
but whose parsed string value contains one, via the `\u007d` escape. -/
def textInlineEscapedBrace : List Char :=
  "I'm using \x7b\"function\": \"f\", \"params\": \x7b\"a\": \"\\u007d\"\x7d\x7d now.".toList

/-- Two well-formed marker-delimited payloads in source order. -/
def textTwoMarkers : List Char :=
  "TOOL_CALL_START\n\x7b\"function\": \"core_memory_append\", \"params\": \x7b\x7d\x7d\nTOOL_CALL_END\nTOOL_CALL_START\n\x7b\"function\": \"archival_memory_insert\", \"params\": \x7b\x7d\x7d\nTOOL_CALL_END".toList

mutual

/-- Number of object nodes in a JSON value, at every depth.  An inline
params fragment contains exactly one literal closing brace, and a
successful parse consumes one per object node, so its value has exactly
one object node: the top level. -/
def objCount : Json → Nat
  | .obj m => 1 + objCountMembers m
  | .arr xs => objCountElems xs
  | _ => 0

def objCountMembers : List (List Char × Json) → Nat
  | [] => 0
  | kv :: t => objCount kv.2 + objCountMembers t

def objCountElems : List Json → Nat
  | [] => 0
  | v :: t => objCount v + objCountElems t

end

/-! ## Helper lemmas -/

/-- The extractor cascade, case-split on the two fallible strategies. -/
theorem extract_eq_cases (s : List Char) (ms cs : List ToolCall)
    (hm : extractWithMarkers s = Except.ok ms)
    (hc : extractFromCodeBlocks s = Except.ok cs) :
    extract_tool_calls s =
      Except.ok (if ms.isEmpty then
        (if cs.isEmpty then extractInlineJson s else cs) else ms) := by
  cases ms with
  | nil =>
    cases cs with
    | nil => simp [extract_tool_calls, hm, hc]
    | cons c t => simp [extract_tool_calls, hm, hc]
  | cons m t => simp [extract_tool_calls, hm]

/-- A `ToolCall` built by the marker/fenced loop body carries the
strategy's confidence argument. -/
theorem processPayload_conf (conf : ℚ) (body : List Char) (tc : ToolCall)
    (h : processPayload conf body = .ok (some tc)) : tc.confidence = conf := by
  unfold processPayload at h
  repeat' split at h
  all_goals
    first
      | exact Except.noConfusion h
      | (injection h with h1; exact Option.noConfusion h1)
      | (injection h with h1; injection h1 with h2; subst h2; rfl)

/-- Every `ToolCall` returned by the marker/fenced loop carries the
strategy's confidence argument. -/
theorem processMatches_conf (conf : ℚ) :
    ∀ (l : List (Nat × List Char)) (r : List ToolCall),
      processMatches conf l = .ok r → ∀ tc ∈ r, tc.confidence = conf := by
  intro l
  induction l with
  | nil =>
    intro r h tc htc
    unfold processMatches at h
    injection h with h1
    subst h1
    simp at htc
  | cons hd tl ih =>
    intro r h tc htc
    obtain ⟨p, body⟩ := hd
    unfold processMatches at h
    split at h
    · exact Except.noConfusion h
    · rename_i head? hpay
      split at h
      · exact Except.noConfusion h
      · rename_i tail htail
        injection h with h1
        subst h1
        cases head? with
        | none => exact ih tail htail tc htc
        | some tc' =>
          rcases List.mem_cons.mp htc with rfl | hmem
          · exact processPayload_conf conf body tc hpay
          · exact ih tail htail tc hmem

/-- Inversion for the inline loop: every returned `ToolCall` comes from
some match whose params fragment parsed and whose window the heuristic
accepted. -/
theorem processInline_mem (full : List Char) :
    ∀ (mlist : List (Nat × (List Char × List Char))) (tc : ToolCall),
      tc ∈ processInline full mlist →
      ∃ p g1 g2 ps, (p, (g1, g2)) ∈ mlist ∧ jsonLoads g2 = some ps ∧
        isLikelyToolCall full p = true ∧
        tc = ⟨Json.str g1, ps, 3 / 5⟩ := by
  intro mlist
  induction mlist with
  | nil => intro tc h; simp [processInline] at h
  | cons hd tl ih =>
    intro tc h
    obtain ⟨p, g1, g2⟩ := hd
    unfold processInline at h
    split at h
    · obtain ⟨p', g1', g2', ps', hmem, hj, hl, he⟩ := ih tc h
      exact ⟨p', g1', g2', ps', List.mem_cons_of_mem _ hmem, hj, hl, he⟩
    · rename_i ps hj
      split at h
      · rename_i hlik
        rcases List.mem_cons.mp h with rfl | hmem
        · exact ⟨p, g1, g2, ps, List.mem_cons_self _ _, hj, hlik, rfl⟩
        · obtain ⟨p', g1', g2', ps', hmem', hj', hl', he'⟩ := ih tc hmem
          exact ⟨p', g1', g2', ps', List.mem_cons_of_mem _ hmem', hj', hl', he'⟩
      · obtain ⟨p', g1', g2', ps', hmem', hj', hl', he'⟩ := ih tc h
        exact ⟨p', g1', g2', ps', List.mem_cons_of_mem _ hmem', hj', hl', he'⟩

/-- The inline loop is a `filterMap` over the matches. -/
theorem processInline_eq_filterMap (full : List Char)
    (mlist : List (Nat × (List Char × List Char))) :
    processInline full mlist = mlist.filterMap (fun m =>
      match jsonLoads m.2.2 with
      | none => none
      | some ps =>
        if isLikelyToolCall full m.1 then some ⟨Json.str m.2.1, ps, 3 / 5⟩
        else none) := by
  induction mlist with
  | nil => rfl
  | cons hd tl ih =>
    obtain ⟨p, g1, g2⟩ := hd
    unfold processInline
    rw [List.filterMap_cons]
    split
    · rename_i hj
      simp only [hj]
      exact ih
    · rename_i ps hj
      simp only [hj]
      split
      · simp [ih]
      · exact ih

/-! ## finditer lemmas: positions are increasing, matches come from the
pattern's attempt function -/

theorem finditerGo_pos_ge {α : Type} (tryAt : List Char → Option (α × Nat)) :
    ∀ (fuel : Nat) (l : List Char) (pos q : Nat) (a : α),
      (q, a) ∈ finditerGo tryAt fuel l pos → pos ≤ q := by
  intro fuel
  induction fuel with
  | zero => intro l pos q a h; simp [finditerGo] at h
  | succ f ih =>
    intro l pos q a h
    cases l with
    | nil => simp [finditerGo] at h
    | cons c t =>
      unfold finditerGo at h
      split at h
      · rename_i a' m' heq
        rcases List.mem_cons.mp h with hhd | htl
        · injection hhd with h1 h2; omega
        · have := ih _ _ _ _ htl; omega
      · have := ih _ _ _ _ h; omega

theorem finditerGo_chain {α : Type} (tryAt : List Char → Option (α × Nat))
    (hpos : ∀ l a m, tryAt l = some (a, m) → 0 < m) :
    ∀ (fuel : Nat) (l : List Char) (pos : Nat),
      List.Chain' (· < ·) ((finditerGo tryAt fuel l pos).map Prod.fst) := by
  intro fuel
  induction fuel with
  | zero => intro l pos; simp [finditerGo]
  | succ f ih =>
    intro l pos
    cases l with
    | nil => simp [finditerGo]
    | cons c t =>
      unfold finditerGo
      split
      · rename_i a' m' heq
        rw [List.map_cons, List.chain'_cons']
        refine ⟨?_, ih _ _⟩
        intro y hy
        have hmem : y ∈ (finditerGo tryAt f ((c :: t).drop m') (pos + m')).map Prod.fst :=
          List.mem_of_mem_head? hy
        obtain ⟨⟨q, a⟩, hqa, rfl⟩ := List.mem_map.mp hmem
        have h1 := finditerGo_pos_ge tryAt f _ _ _ _ hqa
        have h2 := hpos _ a' m' heq
        simp at h1 ⊢
        omega
      · exact ih _ _

theorem finditerGo_mem_tryAt {α : Type} (tryAt : List Char → Option (α × Nat)) :
    ∀ (fuel : Nat) (l : List Char) (pos q : Nat) (a : α),
      (q, a) ∈ finditerGo tryAt fuel l pos →
      ∃ l' m, tryAt l' = some (a, m) := by
  intro fuel
  induction fuel with
  | zero => intro l pos q a h; simp [finditerGo] at h
  | succ f ih =>
    intro l pos q a h
    cases l with
    | nil => simp [finditerGo] at h
    | cons c t =>
      unfold finditerGo at h
      split at h
      · rename_i a' m' heq
        rcases List.mem_cons.mp h with hhd | htl
        · injection hhd with h1 h2
          subst h2
          exact ⟨c :: t, m', heq⟩
        · exact ih _ _ _ _ htl
      · exact ih _ _ _ _ h

/-- Inversion for `firstSome`: a success comes from some element. -/
theorem firstSome_inv {α β : Type} (f : α → Option β) :
    ∀ (xs : List α) (b : β), firstSome f xs = some b →
      ∃ a ∈ xs, f a = some b := by
  intro xs
  induction xs with
  | nil => intro b h; simp [firstSome] at h
  | cons a t ih =>
    intro b h
    unfold firstSome at h
    split at h
    · rename_i b' heq
      injection h with h1
      subst h1
      exact ⟨a, List.mem_cons_self _ _, heq⟩
    · obtain ⟨a', ha', hf⟩ := ih b h
      exact ⟨a', List.mem_cons_of_mem _ ha', hf⟩

/-- All three match attempts consume at least one character, so
`finditer` always makes progress. -/
theorem tryMarkerAt_pos (l b : List Char) (m : Nat)
    (h : tryMarkerAt l = some (b, m)) : 0 < m := by
  unfold tryMarkerAt at h
  split at h
  · obtain ⟨k, hk, hf⟩ := firstSome_inv _ _ _ h
    rw [Option.map_eq_some'] at hf
    obtain ⟨d, hd, hfd⟩ := hf
    injection hfd with h2 h3
    omega
  · exact Option.noConfusion h

/-- Positive match length for the fenced-block pattern. -/
theorem tryBlockAt_pos (l b : List Char) (m : Nat)
    (h : tryBlockAt l = some (b, m)) : 0 < m := by
  simp only [tryBlockAt] at h
  repeat' split at h
  all_goals try exact Option.noConfusion h
  all_goals
    rw [Option.map_eq_some'] at h
    obtain ⟨p, hp, hf⟩ := h
    injection hf with h2 h3
    omega

/-- Shape of every inline match: positive length, a non-empty group 1
(the regex requires at least one name character), and a group 2 of the
form `\x7b … \x7d` whose interior contains no closing brace (the regex
class excludes it). -/
theorem tryInlineAt_shape (l g1 g2 : List Char) (m : Nat)
    (h : tryInlineAt l = some ((g1, g2), m)) :
    0 < m ∧ g1 ≠ [] ∧
    ∃ mid, g2 = '\x7b' :: (mid ++ ['\x7d']) ∧ ∀ c ∈ mid, c ≠ '\x7d' := by
  simp only [tryInlineAt] at h
  repeat' split at h
  all_goals try exact Option.noConfusion h
  injection h with h1
  injection h1 with h2 h3
  injection h2 with h4 h5
  subst h4
  subst h5
  refine ⟨by omega, by assumption, _, rfl, ?_⟩
  intro c hc
  have := List.mem_takeWhile_imp hc
  simpa using this

/-- Positive match length for the inline pattern. -/
theorem tryInlineAt_pos (l : List Char) (g : List Char × List Char)
    (m : Nat) (h : tryInlineAt l = some (g, m)) : 0 < m := by
  obtain ⟨g1, g2⟩ := g
  exact (tryInlineAt_shape l g1 g2 m h).1

/-! ## Counting object nodes, for the inline "no nested objects" claim -/

theorem suffix_cons_of_suffix {α : Type} (a : α) {l₁ l₂ : List α}
    (h : l₁ <:+ l₂) : l₁ <:+ a :: l₂ :=
  h.trans (List.suffix_cons a l₂)

theorem parseUEscape_suffix (l : List Char) (ec : Char) (r : List Char)
    (h : parseUEscape l = some (ec, r)) : r <:+ l := by
  unfold parseUEscape at h
  repeat' split at h
  all_goals first
    | exact Option.noConfusion h
    | (injection h with h1; injection h1 with h2 h3; subst h3;
       repeat first
         | exact List.suffix_rfl
         | apply suffix_cons_of_suffix)

theorem parseEscape_suffix (l : List Char) (ec : Char) (r : List Char)
    (h : parseEscape l = some (ec, r)) : r <:+ l := by
  unfold parseEscape at h
  repeat' split at h
  all_goals first
    | exact Option.noConfusion h
    | (injection h with h1; injection h1 with h2 h3; subst h3;
       exact List.suffix_cons _ _)
    | exact suffix_cons_of_suffix _ (parseUEscape_suffix _ _ _ h)

theorem parseStrBody_suffix :
    ∀ (fuel : Nat) (l s r : List Char),
      parseStrBody fuel l = some (s, r) → r <:+ l := by
  intro fuel
  induction fuel with
  | zero => intro l s r h; simp [parseStrBody] at h
  | succ f ih =>
    intro l s r h
    cases l with
    | nil => simp [parseStrBody] at h
    | cons c rest =>
      unfold parseStrBody at h
      repeat' split at h
      all_goals first
        | exact Option.noConfusion h
        | (injection h with h1; injection h1 with h2 h3; subst h3;
           exact List.suffix_cons _ _)
        | (rw [Option.map_eq_some'] at h
           obtain ⟨p, hp, hfn⟩ := h
           injection hfn with hh1 hh2
           subst hh2
           refine (ih _ _ _ hp).trans (suffix_cons_of_suffix _ ?_)
           first
             | exact List.suffix_rfl
             | exact parseEscape_suffix _ _ _ (by assumption))

theorem skipWs_decomp (l : List Char) :
    ∃ pre, l = pre ++ skipWs l ∧ pre.count '\x7d' = 0 := by
  refine ⟨l.takeWhile jsonIsSpace, (List.takeWhile_append_dropWhile jsonIsSpace l).symm, ?_⟩
  rw [List.count_eq_zero]
  intro hmem
  have := List.mem_takeWhile_imp hmem
  simp [jsonIsSpace] at this

theorem parseNumber_inv (l : List Char) (v : Json) (r : List Char)
    (h : parseNumber l = some (v, r)) : objCount v = 0 ∧ r <:+ l := by
  simp only [parseNumber] at h
  repeat' split at h
  all_goals first
    | exact Option.noConfusion h
    | (injection h with h1; injection h1 with h2 h3; subst h2; subst h3;
       exact ⟨rfl, List.drop_suffix _ _⟩)

theorem objCountMembers_insertKey (acc : List (List Char × Json))
    (k : List Char) (v : Json) :
    objCountMembers (insertKey acc k v) ≤ objCount v + objCountMembers acc := by
  induction acc with
  | nil => simp [insertKey, objCountMembers]
  | cons kv t ih =>
    obtain ⟨k', v'⟩ := kv
    unfold insertKey
    split
    · simp only [objCountMembers]
      omega
    · simp only [objCountMembers]
      omega

theorem objCountElems_append (acc : List Json) (v : Json) :
    objCountElems (acc ++ [v]) = objCountElems acc + objCount v := by
  induction acc with
  | nil => simp [objCountElems]
  | cons x t ih =>
    simp only [List.cons_append, objCountElems, List.append_eq, ih]
    omega

theorem parse_count_bound : ∀ fuel : Nat,
    (∀ l v r, parseValue fuel l = some (v, r) →
      ∃ pre, l = pre ++ r ∧ objCount v ≤ pre.count '\x7d') ∧
    (∀ l v r, parseObjectBody fuel l = some (v, r) →
      ∃ pre, l = pre ++ r ∧ objCount v ≤ pre.count '\x7d') ∧
    (∀ l acc v r, parseMembers fuel l acc = some (v, r) →
      ∃ pre, l = pre ++ r ∧
        objCount v ≤ objCountMembers acc + pre.count '\x7d') ∧
    (∀ l v r, parseArrayBody fuel l = some (v, r) →
      ∃ pre, l = pre ++ r ∧ objCount v ≤ pre.count '\x7d') ∧
    (∀ l acc v r, parseElems fuel l acc = some (v, r) →
      ∃ pre, l = pre ++ r ∧
        objCount v ≤ objCountElems acc + pre.count '\x7d') := by
  intro fuel
  induction fuel with
  | zero =>
    refine ⟨fun l v r h => ?_, fun l v r h => ?_, fun l acc v r h => ?_,
      fun l v r h => ?_, fun l acc v r h => ?_⟩
    · simp [parseValue] at h
    · simp [parseObjectBody] at h
    · simp [parseMembers] at h
    · simp [parseArrayBody] at h
    · simp [parseElems] at h
  | succ f ih =>
    obtain ⟨ihV, ihB, ihC, ihD, ihE⟩ := ih
    refine ⟨fun l v r h => ?_, fun l v r h => ?_, fun l acc v r h => ?_,
      fun l v r h => ?_, fun l acc v r h => ?_⟩
    · -- parseValue
      unfold parseValue at h
      obtain ⟨wsPre, hws, hwc⟩ := skipWs_decomp l
      split at h
      · exact Option.noConfusion h
      · rename_i r' heq
        rw [Option.map_eq_some'] at h
        obtain ⟨p, hp, hf⟩ := h
        injection hf with hf1 hf2
        subst hf1
        subst hf2
        obtain ⟨sPre, hs⟩ := parseStrBody_suffix _ _ _ _ hp
        refine ⟨wsPre ++ '"' :: sPre, ?_, by simp [objCount]⟩
        rw [hws, heq, ← hs]
        simp
      · rename_i r' heq
        obtain ⟨pre', hpre, hbound⟩ := ihB _ _ _ h
        refine ⟨wsPre ++ '\x7b' :: pre', ?_, ?_⟩
        · rw [hws, heq, hpre]
          simp
        · simp [List.count_append, List.count_cons, hwc]
          omega
      · rename_i r' heq
        obtain ⟨pre', hpre, hbound⟩ := ihD _ _ _ h
        refine ⟨wsPre ++ '[' :: pre', ?_, ?_⟩
        · rw [hws, heq, hpre]
          simp
        · simp [List.count_append, List.count_cons, hwc]
          omega
      · repeat' split at h
        all_goals first
          | exact Option.noConfusion h
          | (injection h with h1; injection h1 with h2 h3; subst h2; subst h3;
             first
               | exact ⟨wsPre ++ (skipWs l).take 4,
                   hws.trans (by rw [List.append_assoc,
                     List.take_append_drop]), by simp [objCount]⟩
               | exact ⟨wsPre ++ (skipWs l).take 5,
                   hws.trans (by rw [List.append_assoc,
                     List.take_append_drop]), by simp [objCount]⟩
               | exact ⟨wsPre ++ (skipWs l).take 3,
                   hws.trans (by rw [List.append_assoc,
                     List.take_append_drop]), by simp [objCount]⟩
               | exact ⟨wsPre ++ (skipWs l).take 8,
                   hws.trans (by rw [List.append_assoc,
                     List.take_append_drop]), by simp [objCount]⟩
               | exact ⟨wsPre ++ (skipWs l).take 9,
                   hws.trans (by rw [List.append_assoc,
                     List.take_append_drop]), by simp [objCount]⟩)
          | (obtain ⟨hoc, hsfx⟩ := parseNumber_inv _ _ _ h;
             obtain ⟨nPre, hn⟩ := hsfx;
             exact ⟨wsPre ++ nPre, by rw [hws, ← hn]; simp,
               by simp [List.count_append, hwc, hoc]⟩)
    · -- parseObjectBody
      unfold parseObjectBody at h
      obtain ⟨wsPre, hws, hwc⟩ := skipWs_decomp l
      split at h
      · rename_i r' heq
        injection h with h1
        injection h1 with h2 h3
        subst h2
        subst h3
        refine ⟨wsPre ++ ['\x7d'], ?_, ?_⟩
        · rw [hws, heq]
          simp
        · simp [objCount, objCountMembers, List.count_append, List.count_cons,
            hwc]
      · obtain ⟨pre', hpre, hbound⟩ := ihC _ _ _ _ h
        refine ⟨wsPre ++ pre', ?_, ?_⟩
        · rw [hws, hpre]
          simp
        · simp only [objCountMembers] at hbound
          simp [List.count_append, hwc]
          omega
    · -- parseMembers
      unfold parseMembers at h
      obtain ⟨wsPre, hws, hwc⟩ := skipWs_decomp l
      split at h
      · rename_i r' heq
        split at h
        · exact Option.noConfusion h
        · rename_i key r1 heqS
          split at h
          · rename_i r2 heqC
            split at h
            · exact Option.noConfusion h
            · rename_i val r3 heqV
              obtain ⟨sPre, hs⟩ := parseStrBody_suffix _ _ _ _ heqS
              obtain ⟨vPre, hv, hvb⟩ := ihV _ _ _ heqV
              obtain ⟨wsPre2, hws2, hwc2⟩ := skipWs_decomp r1
              obtain ⟨wsPre3, hws3, hwc3⟩ := skipWs_decomp r3
              have hins := objCountMembers_insertKey acc key val
              split at h
              · rename_i r4 heqComma
                obtain ⟨mPre, hm, hb⟩ := ihC _ _ _ _ h
                refine ⟨wsPre ++ '"' :: (sPre ++ wsPre2 ++ ':' ::
                  (vPre ++ wsPre3 ++ ',' :: mPre)), ?_, ?_⟩
                · rw [hws, heq, ← hs, hws2, heqC, hv, hws3, heqComma, hm]
                  simp
                · simp [List.count_append, List.count_cons, hwc, hwc2, hwc3]
                  omega
              · rename_i r4 heqClose
                injection h with h1
                injection h1 with h2 h3
                subst h2
                subst h3
                refine ⟨wsPre ++ '"' :: (sPre ++ wsPre2 ++ ':' ::
                  (vPre ++ wsPre3 ++ ['\x7d'])), ?_, ?_⟩
                · rw [hws, heq, ← hs, hws2, heqC, hv, hws3, heqClose]
                  simp
                · simp [objCount, List.count_append, List.count_cons, hwc,
                    hwc2, hwc3]
                  omega
              · exact Option.noConfusion h
          · exact Option.noConfusion h
      · exact Option.noConfusion h
    · -- parseArrayBody
      unfold parseArrayBody at h
      obtain ⟨wsPre, hws, hwc⟩ := skipWs_decomp l
      split at h
      · rename_i r' heq
        injection h with h1
        injection h1 with h2 h3
        subst h2
        subst h3
        refine ⟨wsPre ++ [']'], ?_, ?_⟩
        · rw [hws, heq]
          simp
        · simp [objCount, objCountElems, List.count_append, List.count_cons,
            hwc]
      · obtain ⟨pre', hpre, hbound⟩ := ihE _ _ _ _ h
        refine ⟨wsPre ++ pre', ?_, ?_⟩
        · rw [hws, hpre]
          simp
        · simp only [objCountElems] at hbound
          simp [List.count_append, hwc]
          omega
    · -- parseElems
      unfold parseElems at h
      split at h
      · exact Option.noConfusion h
      · rename_i val r1 heqV
        obtain ⟨vPre, hv, hvb⟩ := ihV _ _ _ heqV
        obtain ⟨wsPre2, hws2, hwc2⟩ := skipWs_decomp r1
        have happ := objCountElems_append acc val
        split at h
        · rename_i r2 heqComma
          obtain ⟨ePre, he, hb⟩ := ihE _ _ _ _ h
          refine ⟨vPre ++ wsPre2 ++ ',' :: ePre, ?_, ?_⟩
          · rw [hv, hws2, heqComma, he]
            simp
          · simp [List.count_append, List.count_cons, hwc2]
            omega
        · rename_i r2 heqClose
          injection h with h1
          injection h1 with h2 h3
          subst h2
          subst h3
          refine ⟨vPre ++ wsPre2 ++ [']'], ?_, ?_⟩
          · rw [hv, hws2, heqClose]
            simp
          · simp [objCount, List.count_append, List.count_cons, hwc2]
            omega
        · exact Option.noConfusion h

theorem jsonLoads_count_bound (l : List Char) (v : Json)
    (h : jsonLoads l = some v) : objCount v ≤ l.count '\x7d' := by
  unfold jsonLoads at h
  split at h
  · exact Option.noConfusion h
  · rename_i v' rest heq
    split at h
    · injection h with h1
      subst h1
      obtain ⟨pre, hpre, hb⟩ := (parse_count_bound _).1 _ _ _ heq
      rw [hpre, List.count_append]
      omega
    · exact Option.noConfusion h

theorem parseValue_brace (f : Nat) (l : List Char) :
    parseValue (f + 1) ('\x7b' :: l) = parseObjectBody f l := by
  unfold parseValue
  have hws : skipWs ('\x7b' :: l) = '\x7b' :: l := by
    simp [skipWs, List.dropWhile, jsonIsSpace]
  rw [hws]
  rfl

theorem parseObject_obj : ∀ f : Nat,
    (∀ l v r, parseObjectBody f l = some (v, r) → ∃ m, v = Json.obj m) ∧
    (∀ l acc v r, parseMembers f l acc = some (v, r) →
      ∃ m, v = Json.obj m) := by
  intro f
  induction f with
  | zero =>
    refine ⟨fun l v r h => ?_, fun l acc v r h => ?_⟩
    · simp [parseObjectBody] at h
    · simp [parseMembers] at h
  | succ f ih =>
    obtain ⟨ihB, ihC⟩ := ih
    refine ⟨fun l v r h => ?_, fun l acc v r h => ?_⟩
    · unfold parseObjectBody at h
      split at h
      · injection h with h1
        injection h1 with h2 h3
        exact ⟨[], h2.symm⟩
      · exact ihC _ _ _ _ h
    · unfold parseMembers at h
      repeat' split at h
      all_goals first
        | exact Option.noConfusion h
        | exact ihC _ _ _ _ h
        | (injection h with h1; injection h1 with h2 h3;
           exact ⟨_, h2.symm⟩)

theorem jsonLoads_obj (l : List Char) (v : Json)
    (h : jsonLoads ('\x7b' :: l) = some v) : ∃ m, v = Json.obj m := by
  unfold jsonLoads at h
  rw [show (2 * ('\x7b' :: l).length + 2) =
    (2 * ('\x7b' :: l).length + 1) + 1 from rfl, parseValue_brace] at h
  split at h
  · exact Option.noConfusion h
  · rename_i v' rest heq
    split at h
    · injection h with h1
      subst h1
      exact (parseObject_obj _).1 _ _ _ heq
    · exact Option.noConfusion h

theorem objCountMembers_eq_zero (m : List (List Char × Json))
    (h : objCountMembers m = 0) : ∀ kv ∈ m, objCount kv.2 = 0 := by
  induction m with
  | nil => intro kv hkv; simp at hkv
  | cons x t ih =>
    intro kv hkv
    simp only [objCountMembers] at h
    rcases List.mem_cons.mp hkv with rfl | hmem
    · omega
    · exact ih (by omega) kv hmem

/-! ## Claim theorems -/

/-- C1 (amended): for every input text on which the marker and fenced
strategies return normally, `extract_tool_calls` returns the marker
results when there is at least one, else the fenced results when there is
at least one, else exactly the inline strategy's results — the strategies
are mutually exclusive fallbacks in fixed priority order.  (As literally
stated the claim fails: on inputs where a strategy raises, `extract`
propagates the exception instead of returning the inline result; see the
counterexample.) -/
theorem extract_cascade (s : List Char) (ms cs : List ToolCall)
    (hm : extractWithMarkers s = Except.ok ms)
    (hc : extractFromCodeBlocks s = Except.ok cs) :
    extract_tool_calls s =
      Except.ok (if ms.isEmpty then
        (if cs.isEmpty then extractInlineJson s else cs) else ms) :=
  extract_eq_cases s ms cs hm hc

/-- C1 counterexample: on `textStrPayload` no strategy yields an
Invocation (the inline strategy returns `[]`), yet `extract_tool_calls`
does not return that empty sequence — it raises `TypeError` — so the
cascade description is not true of every input text. -/
theorem extract_cascade_cex :
    extractInlineJson textStrPayload = [] ∧
    extract_tool_calls textStrPayload = Except.error PyErr.typeError ∧
    ∀ res : List ToolCall, extract_tool_calls textStrPayload ≠
      Except.ok res := by
  refine ⟨rfl, rfl, ?_⟩
  intro res h
  rw [show extract_tool_calls textStrPayload = Except.error PyErr.typeError
    from rfl] at h
  exact Except.noConfusion h

/-- C1 witness: a text holding both a valid marker-delimited payload
(function `a`) and a valid fenced payload (function `b`) yields exactly
the marker result. -/
theorem extract_cascade_witness :
    extract_tool_calls textBothPayloads =
      Except.ok
        (if ([⟨Json.str ['a'], Json.obj [], 1⟩] : List ToolCall).isEmpty then
          (if ([⟨Json.str ['b'], Json.obj [], 4 / 5⟩] :
              List ToolCall).isEmpty then
            extractInlineJson textBothPayloads
          else [⟨Json.str ['b'], Json.obj [], 4 / 5⟩])
        else [⟨Json.str ['a'], Json.obj [], 1⟩]) :=
  extract_cascade textBothPayloads _ _ rfl rfl

/-- C2: the claim that `extract_tool_calls` never raises is wrong about
the code: a marker-delimited region holding valid JSON whose top-level
value is a string containing both `function` and `params` as substrings
passes the membership test, and the subsequent string subscript raises an
uncaught `TypeError` (`except` only catches `json.JSONDecodeError`). -/
theorem extract_raises_on_nonobject_payload :
    extract_tool_calls textStrPayload = Except.error PyErr.typeError := rfl

/-- C3 counterexample: the marker payload
`{"function": "", "params": {}}` (braces as `\x7b`/`\x7d`) yields an
Invocation whose name is the empty string — the code never checks name
non-emptiness, contradicting the claim. -/
theorem marker_empty_name_cex :
    extract_tool_calls textEmptyName =
      Except.ok [⟨Json.str [], Json.obj [], 1⟩] := rfl

/-- C3 (amended): only the Inline-Embedded strategy guarantees non-empty
names — its regex requires at least one name character — while the
marker/fenced strategies copy the `function` field verbatim, empty or
not. -/
theorem inline_names_nonempty (s : List Char) (tc : ToolCall)
    (h : tc ∈ extractInlineJson s) :
    ∃ nm : List Char, tc.name = Json.str nm ∧ nm ≠ [] := by
  obtain ⟨p, g1, g2, ps, hmem, hj, hl, rfl⟩ := processInline_mem s _ tc h
  obtain ⟨l', m', htry⟩ :=
    finditerGo_mem_tryAt tryInlineAt (s.length + 1) s 0 p (g1, g2) hmem
  obtain ⟨-, hg1, -⟩ := tryInlineAt_shape l' g1 g2 m' htry
  exact ⟨g1, rfl, hg1⟩

/-- C3 witness: the inline example text yields the `send_message`
Invocation, whose name is the non-empty string `send_message`. -/
theorem inline_names_nonempty_witness :
    ∃ nm : List Char,
      (⟨Json.str ("send_message".toList),
        Json.obj [("message".toList, Json.str ("Hello!".toList))],
        3 / 5⟩ : ToolCall).name = Json.str nm ∧ nm ≠ [] :=
  inline_names_nonempty textInlineUsing _ (by
    rw [show extractInlineJson textInlineUsing =
      [⟨Json.str ("send_message".toList),
        Json.obj [("message".toList, Json.str ("Hello!".toList))],
        3 / 5⟩] from rfl]
    exact List.mem_singleton_self _)

/-- C4 counterexample: the marker payload
`{"function": "f", "params": 42}` yields an Invocation whose parameters
are the number 42 — the code copies the `params` field verbatim with no
object check, contradicting the claim. -/
theorem marker_scalar_params_cex :
    extract_tool_calls textScalarParams =
      Except.ok [⟨Json.str ['f'], Json.num 42 0, 1⟩] := rfl

/-- C4 (amended): only the Inline-Embedded strategy guarantees an object
at the top level of `params` — its captured fragment starts with an
opening brace, and JSON values starting with one are objects — while the
marker/fenced strategies pass any JSON value through. -/
theorem inline_params_top_level_objects (s : List Char) (tc : ToolCall)
    (h : tc ∈ extractInlineJson s) : ∃ m, tc.params = Json.obj m := by
  obtain ⟨p, g1, g2, ps, hmem, hj, hl, rfl⟩ := processInline_mem s _ tc h
  obtain ⟨l', m', htry⟩ :=
    finditerGo_mem_tryAt tryInlineAt (s.length + 1) s 0 p (g1, g2) hmem
  obtain ⟨-, -, mid, hg2, -⟩ := tryInlineAt_shape l' g1 g2 m' htry
  subst hg2
  exact jsonLoads_obj _ _ hj

/-- C4 witness: the inline example's Invocation has an object `params`. -/
theorem inline_params_top_level_objects_witness :
    ∃ m, (⟨Json.str ("send_message".toList),
      Json.obj [("message".toList, Json.str ("Hello!".toList))],
      (3 / 5 : ℚ)⟩ : ToolCall).params = Json.obj m :=
  inline_params_top_level_objects textInlineUsing _ (by
    rw [show extractInlineJson textInlineUsing =
      [⟨Json.str ("send_message".toList),
        Json.obj [("message".toList, Json.str ("Hello!".toList))],
        3 / 5⟩] from rfl]
    exact List.mem_singleton_self _)

/-- C5: every Invocation carries exactly its originating strategy's fixed
confidence constant — 1.0 for marker results, 0.8 for fenced results,
0.6 for inline results — and every Invocation `extract_tool_calls`
returns has one of those three values. -/
theorem confidence_constants (s : List Char) (ms cs res : List ToolCall)
    (hm : extractWithMarkers s = Except.ok ms)
    (hc : extractFromCodeBlocks s = Except.ok cs)
    (he : extract_tool_calls s = Except.ok res) :
    (∀ tc ∈ ms, tc.confidence = 1) ∧
    (∀ tc ∈ cs, tc.confidence = 4 / 5) ∧
    (∀ tc ∈ extractInlineJson s, tc.confidence = 3 / 5) ∧
    (∀ tc ∈ res, tc.confidence = 1 ∨ tc.confidence = 4 / 5 ∨
      tc.confidence = 3 / 5) := by
  have h1 : ∀ tc ∈ ms, tc.confidence = 1 := processMatches_conf 1 _ _ hm
  have h2 : ∀ tc ∈ cs, tc.confidence = 4 / 5 :=
    processMatches_conf (4 / 5) _ _ hc
  have h3 : ∀ tc ∈ extractInlineJson s, tc.confidence = 3 / 5 := by
    intro tc htc
    obtain ⟨p, g1, g2, ps, hmem, hj, hl, rfl⟩ :=
      processInline_mem s _ tc htc
    rfl
  refine ⟨h1, h2, h3, ?_⟩
  intro tc htc
  have hcases := extract_eq_cases s ms cs hm hc
  rw [he] at hcases
  injection hcases with h4
  rw [h4] at htc
  split at htc
  · split at htc
    · exact Or.inr (Or.inr (h3 tc htc))
    · exact Or.inr (Or.inl (h2 tc htc))
  · exact Or.inl (h1 tc htc)

/-- C5 witness: the two-strategy text instantiates all four conjuncts. -/
theorem confidence_constants_witness :
    (∀ tc ∈ ([⟨Json.str ['a'], Json.obj [], 1⟩] : List ToolCall),
      tc.confidence = 1) ∧
    (∀ tc ∈ ([⟨Json.str ['b'], Json.obj [], 4 / 5⟩] : List ToolCall),
      tc.confidence = 4 / 5) ∧
    (∀ tc ∈ extractInlineJson textBothPayloads, tc.confidence = 3 / 5) ∧
    (∀ tc ∈ ([⟨Json.str ['a'], Json.obj [], 1⟩] : List ToolCall),
      tc.confidence = 1 ∨ tc.confidence = 4 / 5 ∨
        tc.confidence = 3 / 5) :=
  confidence_constants textBothPayloads _ _ _ rfl rfl rfl

/-- C6: the Disambiguator classifies as invocation exactly when the count
of invocation cues present in the lower-cased window strictly exceeds the
count of discussion cues; equal counts (including all-zero) classify as
discussion; and the two cue vocabularies are the five words each the
claim lists. -/
theorem disambiguator_strict_majority (text : List Char) (position : Nat) :
    (isLikelyToolCall text position = true ↔
      cueScore discussionIndicators (pyLower (contextWindow text position)) <
        cueScore callIndicators (pyLower (contextWindow text position))) ∧
    (cueScore callIndicators (pyLower (contextWindow text position)) =
        cueScore discussionIndicators (pyLower (contextWindow text position)) →
      isLikelyToolCall text position = false) ∧
    callIndicators = ["using".toList, "calling".toList, "execute".toList,
      "run".toList, "invoke".toList] ∧
    discussionIndicators = ["could".toList, "might".toList,
      "would".toList, "should".toList, "example".toList] := by
  refine ⟨?_, ?_, rfl, rfl⟩
  · simp [isLikelyToolCall]
  · intro heq
    simp [isLikelyToolCall, heq]

/-- C6 witness: the window `calling could` has one cue on each side — a
tie — and is classified as discussion. -/
theorem disambiguator_strict_majority_witness :
    isLikelyToolCall ("calling could".toList) 0 = false :=
  (disambiguator_strict_majority ("calling could".toList) 0).2.1 rfl

/-- C7: the Disambiguator window is exactly
`text[max(0, position-100) : min(len(text), position+100)]`, and the
inline strategy keeps a candidate exactly when its params fragment parses
and the Disambiguator accepts the window around the match start. -/
theorem inline_window_and_gating :
    (∀ (text : List Char) (position : Nat),
      contextWindow text position =
        (text.drop (Int.toNat (max 0 ((position : Int) - 100)))).take
          (Int.toNat (min (text.length : Int) ((position : Int) + 100)) -
            Int.toNat (max 0 ((position : Int) - 100)))) ∧
    (∀ s : List Char,
      extractInlineJson s = (scanInline s).filterMap (fun m =>
        match jsonLoads m.2.2 with
        | none => none
        | some ps =>
          if isLikelyToolCall s m.1 then some ⟨Json.str m.2.1, ps, 3 / 5⟩
          else none)) := by
  constructor
  · intro text position
    unfold contextWindow
    have h1 : Int.toNat (max 0 ((position : Int) - 100)) = position - 100 :=
      by omega
    have h2 : Int.toNat (min (text.length : Int) ((position : Int) + 100)) =
        min text.length (position + 100) := by omega
    rw [h1, h2]
  · intro s
    exact processInline_eq_filterMap s (scanInline s)

/-- C8: within every strategy the match-start offsets are strictly
increasing (results appear in left-to-right source order), and the text
with two marker-delimited payloads yields exactly the two Invocations in
source order, each at confidence 1.0. -/
theorem extract_source_order :
    (∀ s : List Char,
      List.Chain' (· < ·) ((scanMarkers s).map Prod.fst)) ∧
    (∀ s : List Char,
      List.Chain' (· < ·) ((scanBlocks s).map Prod.fst)) ∧
    (∀ s : List Char,
      List.Chain' (· < ·) ((scanInline s).map Prod.fst)) ∧
    extract_tool_calls textTwoMarkers = Except.ok
      [⟨Json.str ("core_memory_append".toList), Json.obj [], 1⟩,
       ⟨Json.str ("archival_memory_insert".toList), Json.obj [], 1⟩] := by
  refine ⟨?_, ?_, ?_, rfl⟩
  · intro s
    exact finditerGo_chain tryMarkerAt tryMarkerAt_pos _ _ _
  · intro s
    exact finditerGo_chain tryBlockAt tryBlockAt_pos _ _ _
  · intro s
    exact finditerGo_chain tryInlineAt tryInlineAt_pos _ _ _

/-- A candidate whose loop body yields no `ToolCall` (and no exception)
leaves the remaining processing unchanged. -/
theorem processMatches_skip (conf : ℚ) (p : Nat) (body : List Char)
    (rest : List (Nat × List Char))
    (hpay : processPayload conf body = Except.ok none) :
    processMatches conf ((p, body) :: rest) = processMatches conf rest := by
  show (match processPayload conf body with
    | Except.error e => Except.error e
    | Except.ok head? =>
      match processMatches conf rest with
      | Except.error e => Except.error e
      | Except.ok tail =>
        Except.ok (match head? with
          | some tc => tc :: tail
          | none => tail)) = processMatches conf rest
  rw [hpay]
  cases processMatches conf rest <;> rfl

/-- C9: a marker/fenced candidate whose body is not valid JSON, or whose
parsed object lacks the `function` key or the `params` key, is skipped
and processing continues with the rest unchanged; and a text whose only
candidate is a broken-JSON marker block extracts to the empty sequence
without raising. -/
theorem malformed_candidate_skipped (conf : ℚ) (p : Nat) (body : List Char)
    (rest : List (Nat × List Char)) :
    (jsonLoads (pyStrip body) = none →
      processMatches conf ((p, body) :: rest) = processMatches conf rest) ∧
    (∀ m, jsonLoads (pyStrip body) = some (Json.obj m) →
      funcKey ∉ m.map Prod.fst ∨ paramsKey ∉ m.map Prod.fst →
      processMatches conf ((p, body) :: rest) = processMatches conf rest) ∧
    extract_tool_calls textBrokenJson = Except.ok [] := by
  refine ⟨?_, ?_, rfl⟩
  · intro hnone
    exact processMatches_skip conf p body rest (by
      simp [processPayload, hnone])
  · intro m hsome hmiss
    refine processMatches_skip conf p body rest ?_
    rcases hmiss with hf | hp
    · simp [processPayload, hsome, pyContains, hf]
    · by_cases hfk : funcKey ∈ m.map Prod.fst
      · simp [processPayload, hsome, pyContains, hfk, hp]
      · simp [processPayload, hsome, pyContains, hfk]

/-- C9 witness: a non-JSON candidate and an object candidate missing both
required keys are each skipped, leaving the remaining processing
unchanged. -/
theorem malformed_candidate_skipped_witness :
    processMatches 1 [(0, ("nope".toList))] = processMatches 1 [] ∧
    processMatches 1 [(0, ("\x7b\"a\": 1\x7d".toList))] =
      processMatches 1 [] :=
  ⟨(malformed_candidate_skipped 1 0 ("nope".toList) []).1 rfl,
   (malformed_candidate_skipped 1 0 ("\x7b\"a\": 1\x7d".toList) []).2.1
     [(['a'], Json.num 1 0)] rfl (Or.inl (by decide))⟩

/-- C10 counterexample: the inline fragment with params
`{"a": "}"}` has a brace-free interior, matches the inline regex,
and yields an Invocation whose params string value contains a closing
brace — so "any `}` inside a string value never yields an Invocation" is
false (the `\u007d` escape defeats it). -/
theorem inline_escaped_brace_cex :
    extract_tool_calls textInlineEscapedBrace = Except.ok
      [⟨Json.str ['f'], Json.obj [(['a'], Json.str ['\x7d'])],
        3 / 5⟩] := rfl

/-- C10 (amended): every inline Invocation's params is a top-level
object none of whose member values contains an object at any depth — the
regex forbids a literal closing brace before the fragment's final one,
so no nested object literal can be parsed; string values may still
contain `}` via `\u007d` escapes. -/
theorem inline_params_no_nested_objects (s : List Char) (tc : ToolCall)
    (h : tc ∈ extractInlineJson s) :
    ∃ m, tc.params = Json.obj m ∧ ∀ kv ∈ m, objCount kv.2 = 0 := by
  obtain ⟨p, g1, g2, ps, hmem, hj, hl, rfl⟩ := processInline_mem s _ tc h
  obtain ⟨l', m', htry⟩ :=
    finditerGo_mem_tryAt tryInlineAt (s.length + 1) s 0 p (g1, g2) hmem
  obtain ⟨-, -, mid, hg2, hmid⟩ := tryInlineAt_shape l' g1 g2 m' htry
  subst hg2
  obtain ⟨mobj, rfl⟩ := jsonLoads_obj _ _ hj
  have hcount := jsonLoads_count_bound _ _ hj
  have hmid0 : mid.count '\x7d' = 0 :=
    List.count_eq_zero.mpr (fun hm => hmid _ hm rfl)
  have hone : (('\x7b' :: (mid ++ ['\x7d'])).count '\x7d') = 1 := by
    simp [List.count_cons, List.count_append, hmid0]
  have hobjc : objCount (Json.obj mobj) = 1 + objCountMembers mobj := rfl
  exact ⟨mobj, rfl, objCountMembers_eq_zero mobj (by omega)⟩

/-- C10 witness: the escaped-brace example's params object has a single
member, the string `}`, which contains no object. -/
theorem inline_params_no_nested_objects_witness :
    ∃ m, (⟨Json.str ['f'], Json.obj [(['a'], Json.str ['\x7d'])],
      (3 / 5 : ℚ)⟩ : ToolCall).params = Json.obj m ∧
      ∀ kv ∈ m, objCount kv.2 = 0 :=
  inline_params_no_nested_objects textInlineEscapedBrace _ (by
    rw [show extractInlineJson textInlineEscapedBrace =
      [⟨Json.str ['f'], Json.obj [(['a'], Json.str ['\x7d'])],
        3 / 5⟩] from rfl]
    exact List.mem_singleton_self _)

end VenicePatch
